import Mathlib

/-!
# Verification of the HQM replay parser

Shallow embedding of `src/hqm_parse.rs` and `src/main.rs` (the bit-level
stream reader, the delta position codec, the object snapshot codec and the
message codec), together with theorems checking the specification's claims
about them.

Machine integers are modelled as `Nat`/`Int`; `u32`/`i32` wrap-around is
applied explicitly (`% 2^32`) exactly where the Rust code can overflow.
Rust panics (`unwrap`, `panic!`) are modelled by `Option`, `none` standing
for an aborted decode.
-/

namespace HQM

/-- Buffers hold byte values: every entry is `< 256` (Rust `&[u8]`). -/
abbrev ByteBuf (buf : List Nat) : Prop := ∀ x ∈ buf, x < 256

/-- `HQMMessageReader` in `hqm_parse.rs`: a byte buffer plus a cursor made of
a byte offset `pos` and a bit offset `bit_pos` (invariant: `bit_pos < 8`). -/
structure HQMMessageReader where
  buf : List Nat
  pos : Nat
  bit_pos : Nat
deriving Repr, DecidableEq

/-- `safe_get_byte`: the byte at `pos`, or `0` past the end of the buffer. -/
def HQMMessageReader.safe_get_byte (r : HQMMessageReader) (pos : Nat) : Nat :=
  if pos < r.buf.length then r.buf.getD pos 0 else 0

/-- Loop body of `read_bits` (the Rust `while bits_remaining > 0` loop),
with an explicit fuel bound on the iteration count; when the cursor is valid
(`bit_pos < 8`) every iteration consumes at least one bit, so fuel `b`
suffices for `read_bits(b)`.  The Rust mask `!(!0u32 << bits)` equals
`2 ^ bits - 1` since `bits ≤ 8`.  `a << p` never exceeds 32 bits for the
widths the program uses, so no `u32` wrap is applied to it. -/
def readBitsGo : Nat → Nat → Nat → Nat → HQMMessageReader → Nat × HQMMessageReader
  | 0, _, res, _, r => (res, r)
  | fuel + 1, bits_remaining, res, p, r =>
    if bits_remaining = 0 then (res, r)
    else
      let bits_possible_to_write := 8 - r.bit_pos
      let bits := min bits_remaining bits_possible_to_write
      let mask := 2 ^ bits - 1
      let a := (r.safe_get_byte r.pos >>> r.bit_pos) &&& mask
      let res' := res ||| (a <<< p)
      if bits_remaining ≥ bits_possible_to_write then
        readBitsGo fuel (bits_remaining - bits_possible_to_write) res' (p + bits)
          ⟨r.buf, r.pos + 1, 0⟩
      else
        (res', ⟨r.buf, r.pos, r.bit_pos + bits_remaining⟩)

/-- `read_bits` in `hqm_parse.rs`. -/
def HQMMessageReader.read_bits (r : HQMMessageReader) (b : Nat) : Nat × HQMMessageReader :=
  readBitsGo b b 0 0 r

/-- `align` in `hqm_parse.rs`. -/
def HQMMessageReader.align (r : HQMMessageReader) : HQMMessageReader :=
  if r.bit_pos > 0 then ⟨r.buf, r.pos + 1, 0⟩ else r

/-- `read_byte_aligned` in `hqm_parse.rs`. -/
def HQMMessageReader.read_byte_aligned (r : HQMMessageReader) : Nat × HQMMessageReader :=
  let r := r.align
  (r.safe_get_byte r.pos, ⟨r.buf, r.pos + 1, r.bit_pos⟩)

/-- `read_bytes_aligned` in `hqm_parse.rs`: the bytes at `pos`, …, `pos+n-1`
(zero past the end of the buffer). -/
def HQMMessageReader.read_bytes_aligned (r : HQMMessageReader) (n : Nat) :
    List Nat × HQMMessageReader :=
  let r := r.align
  ((List.range n).map (fun i => r.safe_get_byte (r.pos + i)), ⟨r.buf, r.pos + n, r.bit_pos⟩)

/-- `read_u16_aligned` in `hqm_parse.rs` (little-endian). -/
def HQMMessageReader.read_u16_aligned (r : HQMMessageReader) : Nat × HQMMessageReader :=
  let r := r.align
  let b1 := r.safe_get_byte r.pos
  let b2 := r.safe_get_byte (r.pos + 1)
  (b1 ||| (b2 <<< 8), ⟨r.buf, r.pos + 2, r.bit_pos⟩)

/-- `read_u32_aligned` in `hqm_parse.rs` (little-endian). -/
def HQMMessageReader.read_u32_aligned (r : HQMMessageReader) : Nat × HQMMessageReader :=
  let r := r.align
  let b1 := r.safe_get_byte r.pos
  let b2 := r.safe_get_byte (r.pos + 1)
  let b3 := r.safe_get_byte (r.pos + 2)
  let b4 := r.safe_get_byte (r.pos + 3)
  (b1 ||| (b2 <<< 8) ||| (b3 <<< 16) ||| (b4 <<< 24), ⟨r.buf, r.pos + 4, r.bit_pos⟩)

/-- Reinterpret a 32-bit pattern as a signed `i32` value (Rust `as i32`). -/
def asI32 (n : Nat) : Int :=
  if n % 2 ^ 32 < 2 ^ 31 then ((n % 2 ^ 32 : Nat) : Int)
  else ((n % 2 ^ 32 : Nat) : Int) - 2 ^ 32

/-- The 32-bit pattern of a signed value (Rust `as u32` on an `i32`). -/
def asU32 (x : Int) : Nat := (x % 2 ^ 32).toNat

/-- Wrapping `i32` arithmetic (Rust release-mode overflow semantics):
reduce an exact integer into `[-2^31, 2^31)`. -/
def wrapI32 (x : Int) : Int := (x + 2 ^ 31) % 2 ^ 32 - 2 ^ 31

/-- `read_bits_signed` in `hqm_parse.rs`.  The Rust `(-1i32 << b) | (a as i32)`
is computed on 32-bit patterns: the pattern of `-1 << b` is
`((2^32 - 1) << b) % 2^32`, `|` is bitwise or of the patterns, and the result
is reinterpreted as `i32`. -/
def HQMMessageReader.read_bits_signed (r : HQMMessageReader) (b : Nat) :
    Int × HQMMessageReader :=
  let (a, r') := r.read_bits b
  if a ≥ 1 <<< (b - 1) then
    (asI32 ((((2 ^ 32 - 1) <<< b) % 2 ^ 32) ||| a), r')
  else
    (asI32 a, r')

/-- `read_pos` in `hqm_parse.rs`.  `none` models a Rust panic: the
`Option::unwrap` of a missing reference in modes 0–2, and the unreachable
selector arm.  The signed delta is added to the reference with `i32`
arithmetic (the reference is cast `u32 as i32` first), the sum is clamped at
zero, and the result is cast back to `u32`. -/
def HQMMessageReader.read_pos (r : HQMMessageReader) (b : Nat) (old_value : Option Nat) :
    Option (Nat × HQMMessageReader) :=
  let (pos_type, r1) := r.read_bits 2
  if pos_type = 0 then
    let (diff, r2) := r1.read_bits_signed 3
    match old_value with
    | none => none
    | some ov => some (asU32 (max (wrapI32 (asI32 ov + diff)) 0), r2)
  else if pos_type = 1 then
    let (diff, r2) := r1.read_bits_signed 6
    match old_value with
    | none => none
    | some ov => some (asU32 (max (wrapI32 (asI32 ov + diff)) 0), r2)
  else if pos_type = 2 then
    let (diff, r2) := r1.read_bits_signed 12
    match old_value with
    | none => none
    | some ov => some (asU32 (max (wrapI32 (asI32 ov + diff)) 0), r2)
  else if pos_type = 3 then
    some (r1.read_bits b)
  else
    none

/-- `next` in `hqm_parse.rs`: force-advance one byte. -/
def HQMMessageReader.next (r : HQMMessageReader) : HQMMessageReader :=
  ⟨r.buf, r.pos + 1, 0⟩

/-- `new` in `hqm_parse.rs`: a fresh cursor at the start of the buffer. -/
def HQMMessageReader.new (buf : List Nat) : HQMMessageReader :=
  ⟨buf, 0, 0⟩

/-! ## Arithmetic characterization of the bit reader -/

/-- Little-endian value of the `k` bytes at positions `pos, …, pos + k - 1`
of a buffer (bytes past the end read as zero). -/
def bytesVal (buf : List Nat) : Nat → Nat → Nat
  | _, 0 => 0
  | pos, k + 1 => buf.getD pos 0 + 2 ^ 8 * bytesVal buf (pos + 1) k

theorem safe_get_byte_eq (r : HQMMessageReader) (p : Nat) :
    r.safe_get_byte p = r.buf.getD p 0 := by
  unfold HQMMessageReader.safe_get_byte
  split
  · rfl
  · rw [List.getD_eq_getElem?_getD, List.getElem?_eq_none (by omega)]
    rfl

theorem getD_lt_256 {buf : List Nat} (hb : ByteBuf buf) (p : Nat) : buf.getD p 0 < 256 := by
  rw [List.getD_eq_getElem?_getD]
  rcases h : buf[p]? with _ | x
  · simp
  · simpa using hb x (List.getElem?_mem h)

theorem bytesVal_lt {buf : List Nat} (hb : ByteBuf buf) (pos k : Nat) :
    bytesVal buf pos k < 2 ^ (8 * k) := by
  induction k generalizing pos with
  | zero => simp [bytesVal]
  | succ k ih =>
    have h1 := getD_lt_256 hb pos
    have h2 : 2 ^ 8 * (bytesVal buf (pos + 1) k + 1) ≤ 2 ^ 8 * 2 ^ (8 * k) :=
      Nat.mul_le_mul_left _ (ih (pos + 1))
    have e : 2 ^ (8 * (k + 1)) = 2 ^ 8 * 2 ^ (8 * k) := by
      rw [Nat.mul_succ, Nat.pow_add, Nat.mul_comm]
    simp only [bytesVal, e]
    omega

theorem bytesVal_split (buf : List Nat) (a : Nat) :
    ∀ pos b, bytesVal buf pos (a + b) =
      bytesVal buf pos a + 2 ^ (8 * a) * bytesVal buf (pos + a) b := by
  induction a with
  | zero => intro pos b; simp [bytesVal]
  | succ a ih =>
    intro pos b
    have h1 : a + 1 + b = (a + b) + 1 := by omega
    have e : 2 ^ (8 * (a + 1)) = 2 ^ 8 * 2 ^ (8 * a) := by
      rw [Nat.mul_succ, Nat.pow_add, Nat.mul_comm]
    rw [h1]
    simp only [bytesVal, ih (pos + 1) b, e]
    have h2 : pos + 1 + a = pos + (a + 1) := by omega
    rw [h2]
    ring

/-- Master characterization of the `read_bits` loop: starting from a valid
cursor, the loop extracts bits `t, …, t + m - 1` of the little-endian byte
stream at `pos`, ors them (shifted by `p`) into the accumulator, and leaves
the cursor exactly `m` bits further on. -/
theorem readBitsGo_spec :
    ∀ fuel m res p buf pos t k, t < 8 → m ≤ fuel → t + m ≤ 8 * k → ByteBuf buf →
    readBitsGo fuel m res p ⟨buf, pos, t⟩ =
      (res ||| ((bytesVal buf pos k / 2 ^ t % 2 ^ m) <<< p),
       ⟨buf, pos + (t + m) / 8, (t + m) % 8⟩) := by
  intro fuel
  induction fuel with
  | zero =>
    intro m res p buf pos t k ht hm hk hb
    have hm0 : m = 0 := by omega
    subst hm0
    simp [readBitsGo, Nat.mod_one, Nat.div_eq_of_lt ht, Nat.mod_eq_of_lt ht]
  | succ fuel ih =>
    intro m res p buf pos t k ht hm hk hb
    match m with
    | 0 =>
      simp [readBitsGo, Nat.mod_one, Nat.div_eq_of_lt ht, Nat.mod_eq_of_lt ht]
    | m + 1 =>
      obtain ⟨k', rfl⟩ : ∃ k', k = k' + 1 := ⟨k - 1, by omega⟩
      have hBlt : buf.getD pos 0 < 256 := getD_lt_256 hb pos
      have hsplit : bytesVal buf pos (k' + 1) =
          buf.getD pos 0 + 2 ^ 8 * bytesVal buf (pos + 1) k' := rfl
      have hpow8 : (2 : Nat) ^ 8 = 2 ^ t * 2 ^ (8 - t) := by
        rw [← Nat.pow_add]
        congr 1
        omega
      have hdiv : bytesVal buf pos (k' + 1) / 2 ^ t =
          buf.getD pos 0 / 2 ^ t + 2 ^ (8 - t) * bytesVal buf (pos + 1) k' := by
        rw [hsplit, hpow8, Nat.mul_assoc, Nat.add_mul_div_left _ _ (Nat.pos_pow_of_pos t (by omega))]
      have hBdivlt : buf.getD pos 0 / 2 ^ t < 2 ^ (8 - t) := by
        rw [Nat.div_lt_iff_lt_mul (Nat.pos_pow_of_pos t (by omega)), ← Nat.pow_add]
        have h8 : 8 - t + t = 8 := by omega
        rw [h8]
        exact hBlt
      have h2m : ∀ s, s ≤ m + 1 → (2 : Nat) ^ (m + 1) = 2 ^ s * 2 ^ (m + 1 - s) := by
        intro s hs
        rw [← Nat.pow_add]
        congr 1
        omega
      simp only [readBitsGo]
      rw [if_neg (by omega : ¬ m + 1 = 0)]
      simp only [safe_get_byte_eq]
      by_cases hge : m + 1 ≥ 8 - t
      · rw [if_pos hge]
        have hmin : min (m + 1) (8 - t) = 8 - t := Nat.min_eq_right hge
        have hmask : (buf.getD pos 0 >>> t) &&& (2 ^ min (m + 1) (8 - t) - 1) =
            buf.getD pos 0 / 2 ^ t := by
          rw [hmin, Nat.shiftRight_eq_div_pow, Nat.and_pow_two_sub_one_eq_mod,
            Nat.mod_eq_of_lt hBdivlt]
        rw [hmask, hmin]
        rw [ih (m + 1 - (8 - t)) _ _ buf (pos + 1) 0 k' (by omega) (by omega) (by omega) hb]
        have hs1 : pos + 1 + (0 + (m + 1 - (8 - t))) / 8 = pos + (t + (m + 1)) / 8 := by omega
        have hs2 : (0 + (m + 1 - (8 - t))) % 8 = (t + (m + 1)) % 8 := by omega
        rw [hs1, hs2]
        have hmod2 : bytesVal buf pos (k' + 1) / 2 ^ t % 2 ^ (m + 1) =
            buf.getD pos 0 / 2 ^ t + 2 ^ (8 - t) *
              (bytesVal buf (pos + 1) k' / 2 ^ 0 % 2 ^ (m + 1 - (8 - t))) := by
          rw [Nat.pow_zero, Nat.div_one, hdiv, h2m (8 - t) hge, Nat.mod_mul]
          congr 1
          · rw [Nat.add_mul_mod_self_left, Nat.mod_eq_of_lt hBdivlt]
          · congr 2
            rw [Nat.add_mul_div_left _ _ (Nat.pos_pow_of_pos _ (by omega)),
              Nat.div_eq_of_lt hBdivlt, Nat.zero_add]
        rw [hmod2, Nat.or_assoc]
        congr 2
        rw [Nat.shiftLeft_eq, Nat.shiftLeft_eq, Nat.shiftLeft_eq]
        have hb1 : buf.getD pos 0 / 2 ^ t * 2 ^ p < 2 ^ (p + (8 - t)) := by
          calc buf.getD pos 0 / 2 ^ t * 2 ^ p < 2 ^ (8 - t) * 2 ^ p :=
                Nat.mul_lt_mul_of_lt_of_le hBdivlt (Nat.le_refl _)
                  (Nat.pos_pow_of_pos _ (by omega))
            _ = 2 ^ (p + (8 - t)) := by rw [← Nat.pow_add]; congr 1; omega
        rw [Nat.or_comm, Nat.mul_comm
          (bytesVal buf (pos + 1) k' / 2 ^ 0 % 2 ^ (m + 1 - (8 - t))) (2 ^ (p + (8 - t))),
          ← Nat.mul_add_lt_is_or hb1]
        rw [Nat.pow_add]
        ring
      · rw [if_neg hge]
        have hmin : min (m + 1) (8 - t) = m + 1 := Nat.min_eq_left (by omega)
        have hs1 : pos = pos + (t + (m + 1)) / 8 := by omega
        have hs2 : t + (m + 1) = (t + (m + 1)) % 8 := by omega
        have hval : (buf.getD pos 0 >>> t) &&& (2 ^ min (m + 1) (8 - t) - 1) =
            bytesVal buf pos (k' + 1) / 2 ^ t % 2 ^ (m + 1) := by
          rw [hmin, Nat.shiftRight_eq_div_pow, Nat.and_pow_two_sub_one_eq_mod]
          rw [hdiv]
          have e3 : (2 : Nat) ^ (8 - t) * bytesVal buf (pos + 1) k' =
              2 ^ (m + 1) * (2 ^ (8 - t - (m + 1)) * bytesVal buf (pos + 1) k') := by
            rw [← Nat.mul_assoc, ← Nat.pow_add]
            congr 2
            omega
          rw [e3, Nat.add_mul_mod_self_left]
        rw [hval]
        have hd0 : pos + (t + (m + 1)) / 8 = pos := by omega
        have hm0 : (t + (m + 1)) % 8 = t + (m + 1) := by omega
        rw [hd0, hm0]

/-- Splitting off the low `s` bits under a wider modulus. -/
theorem add_mul_mod_pow {x : Nat} (R : Nat) {s m : Nat} (hx : x < 2 ^ s) (hs : s ≤ m) :
    (x + 2 ^ s * R) % 2 ^ m = x + 2 ^ s * (R % 2 ^ (m - s)) := by
  have hm : (2 : Nat) ^ m = 2 ^ s * 2 ^ (m - s) := by
    rw [← Nat.pow_add]
    congr 1
    omega
  rw [hm, Nat.mod_mul]
  congr 1
  · rw [Nat.add_mul_mod_self_left, Nat.mod_eq_of_lt hx]
  · congr 2
    rw [Nat.add_mul_div_left _ _ (Nat.pos_pow_of_pos _ (by omega)),
      Nat.div_eq_of_lt hx, Nat.zero_add]

/-- A disjoint bitwise or is an addition. -/
theorem or_eq_add_of_lt {x y i : Nat} (hx : x < 2 ^ i) : x ||| y * 2 ^ i = x + y * 2 ^ i := by
  rw [Nat.or_comm, Nat.mul_comm, ← Nat.mul_add_lt_is_or hx]
  omega

/-- Reading `m` bits after skipping `t` only looks at the first `k` bytes when
`t + m ≤ 8k`: extra bytes beyond those change nothing. -/
theorem bytesVal_div_mod_congr (buf : List Nat) (pos t m k k' : Nat)
    (hk : t + m ≤ 8 * k) (hkk : k ≤ k') :
    bytesVal buf pos k' / 2 ^ t % 2 ^ m = bytesVal buf pos k / 2 ^ t % 2 ^ m := by
  obtain ⟨d, rfl⟩ : ∃ d, k' = k + d := ⟨k' - k, by omega⟩
  rw [bytesVal_split buf k pos d]
  have h8 : (2 : Nat) ^ (8 * k) = 2 ^ t * 2 ^ (8 * k - t) := by
    rw [← Nat.pow_add]
    congr 1
    omega
  rw [h8, Nat.mul_assoc, Nat.add_mul_div_left _ _ (Nat.pos_pow_of_pos t (by omega))]
  have e3 : (2 : Nat) ^ (8 * k - t) * bytesVal buf (pos + k) d =
      2 ^ m * (2 ^ (8 * k - t - m) * bytesVal buf (pos + k) d) := by
    rw [← Nat.mul_assoc, ← Nat.pow_add]
    congr 2
    omega
  rw [e3, Nat.add_mul_mod_self_left]

/-- `read_bits b` from a valid cursor returns bits `t, …, t + b - 1` of the
byte stream at `pos` and advances the cursor by exactly `b` bits. -/
theorem read_bits_eq {buf : List Nat} (pos t b : Nat) (ht : t < 8) (hb : ByteBuf buf) :
    HQMMessageReader.read_bits ⟨buf, pos, t⟩ b =
      (bytesVal buf pos b / 2 ^ t % 2 ^ b, ⟨buf, pos + (t + b) / 8, (t + b) % 8⟩) := by
  match b with
  | 0 =>
    simp [HQMMessageReader.read_bits, readBitsGo, Nat.mod_one,
      Nat.div_eq_of_lt ht, Nat.mod_eq_of_lt ht]
  | b + 1 =>
    unfold HQMMessageReader.read_bits
    rw [readBitsGo_spec (b + 1) (b + 1) 0 0 buf pos t (b + 1) ht (Nat.le_refl _) (by omega) hb]
    simp

/-- The value read by `read_bits`, expressed over any wide-enough byte window. -/
theorem read_bits_val {buf : List Nat} (pos t b k : Nat) (ht : t < 8)
    (hk : t + b ≤ 8 * k) (hb : ByteBuf buf) :
    (HQMMessageReader.read_bits ⟨buf, pos, t⟩ b).1 = bytesVal buf pos k / 2 ^ t % 2 ^ b := by
  match b with
  | 0 => simp [HQMMessageReader.read_bits, readBitsGo, Nat.mod_one]
  | b + 1 =>
    rw [read_bits_eq pos t (b + 1) ht hb]
    by_cases h : b + 1 ≤ k
    · exact (bytesVal_div_mod_congr buf pos t (b + 1) (b + 1) k (by omega) h).symm
    · exact bytesVal_div_mod_congr buf pos t (b + 1) k (b + 1) hk (by omega)

/-- The cursor after `read_bits`. -/
theorem read_bits_state {buf : List Nat} (pos t b : Nat) (ht : t < 8) (hb : ByteBuf buf) :
    (HQMMessageReader.read_bits ⟨buf, pos, t⟩ b).2 =
      ⟨buf, pos + (t + b) / 8, (t + b) % 8⟩ := by
  rw [read_bits_eq pos t b ht hb]

/-- `read_bits b` always returns a value below `2 ^ b` (from a valid cursor). -/
theorem read_bits_lt {buf : List Nat} (pos t b : Nat) (ht : t < 8) (hb : ByteBuf buf) :
    (HQMMessageReader.read_bits ⟨buf, pos, t⟩ b).1 < 2 ^ b := by
  rw [read_bits_eq pos t b ht hb]
  exact Nat.mod_lt _ (Nat.pos_pow_of_pos _ (by omega))

/-- `read_u32_aligned` from an aligned cursor is the little-endian 32-bit word. -/
theorem read_u32_aligned_eq {buf : List Nat} (pos : Nat) (hb : ByteBuf buf) :
    HQMMessageReader.read_u32_aligned ⟨buf, pos, 0⟩ = (bytesVal buf pos 4, ⟨buf, pos + 4, 0⟩) := by
  have h0 := getD_lt_256 hb pos
  have h1 := getD_lt_256 hb (pos + 1)
  have h2 := getD_lt_256 hb (pos + 2)
  have h3 := getD_lt_256 hb (pos + 3)
  simp only [HQMMessageReader.read_u32_aligned, HQMMessageReader.align, gt_iff_lt,
    Nat.lt_irrefl, if_false, safe_get_byte_eq]
  congr 1
  rw [Nat.shiftLeft_eq, Nat.shiftLeft_eq, Nat.shiftLeft_eq]
  rw [or_eq_add_of_lt (by omega : buf.getD pos 0 < 2 ^ 8)]
  rw [or_eq_add_of_lt (by
    have : (2 : Nat) ^ 8 = 256 := by norm_num
    have : (2 : Nat) ^ 16 = 65536 := by norm_num
    omega : buf.getD pos 0 + buf.getD (pos + 1) 0 * 2 ^ 8 < 2 ^ 16)]
  rw [or_eq_add_of_lt (by
    have : (2 : Nat) ^ 8 = 256 := by norm_num
    have : (2 : Nat) ^ 16 = 65536 := by norm_num
    have : (2 : Nat) ^ 24 = 16777216 := by norm_num
    omega : buf.getD pos 0 + buf.getD (pos + 1) 0 * 2 ^ 8 + buf.getD (pos + 2) 0 * 2 ^ 16 <
      2 ^ 24)]
  simp only [bytesVal]
  ring_nf

/-! ## C4: splitting a 32-bit read -/

/-- C4: for every byte buffer of at least 4 bytes and every `n` in `1..=31`,
on a freshly aligned cursor, reading `lo = read_bits(n)` then
`hi = read_bits(32-n)` and concatenating (`hi * 2^n + lo`) reconstructs
exactly the 32-bit little-endian word `read_u32_aligned` returns on the same
buffer (lower-order bits come from the earlier byte). -/
theorem C4_bit_split_reconstructs_u32 (buf : List Nat) (n : Nat)
    (hb : ByteBuf buf) (hlen : 4 ≤ buf.length) (hn1 : 1 ≤ n) (hn2 : n ≤ 31) :
    ((((HQMMessageReader.new buf).read_bits n).2).read_bits (32 - n)).1 * 2 ^ n +
      ((HQMMessageReader.new buf).read_bits n).1 =
    ((HQMMessageReader.new buf).read_u32_aligned).1 := by
  unfold HQMMessageReader.new
  rw [read_bits_state 0 0 n (by omega) hb]
  simp only [Nat.zero_add]
  rw [read_bits_val 0 0 n 4 (by omega) (by omega) hb]
  rw [read_bits_val (n / 8) (n % 8) (32 - n) (4 - n / 8) (by omega) (by omega) hb]
  rw [read_u32_aligned_eq 0 hb]
  simp only [Nat.pow_zero, Nat.div_one]
  have hA : bytesVal buf 0 (n / 8) < 2 ^ (8 * (n / 8)) := bytesVal_lt hb 0 (n / 8)
  have hB : bytesVal buf (n / 8) (4 - n / 8) < 2 ^ (8 * (4 - n / 8)) :=
    bytesVal_lt hb (n / 8) (4 - n / 8)
  have hsplit : bytesVal buf 0 4 = bytesVal buf 0 (n / 8) +
      2 ^ (8 * (n / 8)) * bytesVal buf (n / 8) (4 - n / 8) := by
    have h := bytesVal_split buf (n / 8) 0 (4 - n / 8)
    rw [Nat.zero_add] at h
    rw [← h]
    congr 1
    omega
  have hBd : bytesVal buf (n / 8) (4 - n / 8) / 2 ^ (n % 8) < 2 ^ (32 - n) := by
    rw [Nat.div_lt_iff_lt_mul (Nat.pos_pow_of_pos _ (by omega))]
    have e : (2 : Nat) ^ (32 - n) * 2 ^ (n % 8) = 2 ^ (8 * (4 - n / 8)) := by
      rw [← Nat.pow_add]
      congr 1
      omega
    rw [e]
    exact hB
  rw [hsplit, add_mul_mod_pow _ hA (by omega)]
  have hns : n - 8 * (n / 8) = n % 8 := by omega
  rw [hns, Nat.mod_eq_of_lt hBd]
  have hpow : (2 : Nat) ^ n = 2 ^ (8 * (n / 8)) * 2 ^ (n % 8) := by
    rw [← Nat.pow_add]
    congr 1
    omega
  rw [hpow]
  conv_rhs => rw [← Nat.div_add_mod (bytesVal buf (n / 8) (4 - n / 8)) (2 ^ (n % 8))]
  ring

/-- Witness for C4 at a concrete input. -/
theorem C4_bit_split_reconstructs_u32_witness :
    ((((HQMMessageReader.new [120, 86, 52, 18]).read_bits 13).2).read_bits (32 - 13)).1 *
        2 ^ 13 +
      ((HQMMessageReader.new [120, 86, 52, 18]).read_bits 13).1 =
    ((HQMMessageReader.new [120, 86, 52, 18]).read_u32_aligned).1 :=
  C4_bit_split_reconstructs_u32 [120, 86, 52, 18] 13 (by decide) (by decide) (by decide)
    (by decide)

/-! ## C6: reads past the end of the buffer -/

theorem safe_get_byte_past_end {r : HQMMessageReader} {p : Nat} (h : r.buf.length ≤ p) :
    r.safe_get_byte p = 0 := by
  unfold HQMMessageReader.safe_get_byte
  rw [if_neg (by omega)]

theorem readBitsGo_past_end :
    ∀ fuel m res p (r : HQMMessageReader), r.buf.length ≤ r.pos →
    (readBitsGo fuel m res p r).1 = res := by
  intro fuel
  induction fuel with
  | zero => intro m res p r h; rfl
  | succ fuel ih =>
    intro m res p r h
    simp only [readBitsGo]
    split
    · rfl
    · rw [safe_get_byte_past_end h]
      simp only [Nat.zero_shiftRight, Nat.zero_and, Nat.zero_shiftLeft, Nat.or_zero]
      split
      · exact ih _ res _ ⟨r.buf, r.pos + 1, 0⟩ (by simpa using Nat.le_succ_of_le h)
      · rfl

theorem align_past_end {r : HQMMessageReader} (h : r.buf.length ≤ r.pos) :
    r.align.buf = r.buf ∧ r.buf.length ≤ r.align.pos := by
  unfold HQMMessageReader.align
  by_cases hc : r.bit_pos > 0
  · rw [if_pos hc]
    refine ⟨rfl, ?_⟩
    show r.buf.length ≤ r.pos + 1
    omega
  · rw [if_neg hc]
    exact ⟨rfl, h⟩

/-- C6: once the cursor is at or past the buffer end, every read operation
behaves as if the missing bytes were zero and never fails: `read_bits`,
`read_byte_aligned`, `read_u16_aligned` and `read_u32_aligned` return `0`,
and `read_bytes_aligned n` returns `n` zero bytes.  (All reads are total
functions of the cursor: nothing can panic.) -/
theorem C6_reads_past_end_are_zero (r : HQMMessageReader) (h : r.buf.length ≤ r.pos)
    (n : Nat) :
    (r.read_bits n).1 = 0 ∧
    (r.read_byte_aligned).1 = 0 ∧
    (r.read_u16_aligned).1 = 0 ∧
    (r.read_u32_aligned).1 = 0 ∧
    (r.read_bytes_aligned n).1 = List.replicate n 0 := by
  obtain ⟨ha1, ha2⟩ := align_past_end h
  refine ⟨readBitsGo_past_end n n 0 0 r h, ?_, ?_, ?_, ?_⟩
  · simp only [HQMMessageReader.read_byte_aligned]
    exact safe_get_byte_past_end (by rw [ha1]; omega)
  · simp only [HQMMessageReader.read_u16_aligned]
    rw [safe_get_byte_past_end (by rw [ha1]; omega),
      safe_get_byte_past_end (by rw [ha1]; omega)]
    simp
  · simp only [HQMMessageReader.read_u32_aligned]
    rw [safe_get_byte_past_end (by rw [ha1]; omega),
      safe_get_byte_past_end (by rw [ha1]; omega),
      safe_get_byte_past_end (by rw [ha1]; omega),
      safe_get_byte_past_end (by rw [ha1]; omega)]
    simp
  · simp only [HQMMessageReader.read_bytes_aligned]
    rw [List.eq_replicate_iff]
    refine ⟨by simp, ?_⟩
    intro b hbmem
    simp only [List.mem_map, List.mem_range] at hbmem
    obtain ⟨i, _, rfl⟩ := hbmem
    exact safe_get_byte_past_end (by rw [ha1]; omega)

/-- Witness for C6 at a concrete input: an empty buffer, reading 5 bits. -/
theorem C6_reads_past_end_are_zero_witness :
    ((HQMMessageReader.new []).read_bits 5).1 = 0 ∧
    ((HQMMessageReader.new []).read_byte_aligned).1 = 0 ∧
    ((HQMMessageReader.new []).read_u16_aligned).1 = 0 ∧
    ((HQMMessageReader.new []).read_u32_aligned).1 = 0 ∧
    ((HQMMessageReader.new []).read_bytes_aligned 5).1 = List.replicate 5 0 :=
  C6_reads_past_end_are_zero (HQMMessageReader.new []) (by decide) 5

/-! ## Signed reads -/

theorem getD_past_end {l : List Nat} {p : Nat} (h : l.length ≤ p) : l.getD p 0 = 0 := by
  rw [List.getD_eq_getElem?_getD, List.getElem?_eq_none h]
  rfl

theorem bytesVal_past_end {l : List Nat} :
    ∀ k pos, l.length ≤ pos → bytesVal l pos k = 0 := by
  intro k
  induction k with
  | zero => intro pos _; rfl
  | succ k ih =>
    intro pos h
    simp only [bytesVal, getD_past_end h, ih (pos + 1) (by omega)]
    omega

/-- `read_bits_signed b` returns the `b`-bit unsigned value reinterpreted as
two's complement: `a` itself when `a < 2^(b-1)`, and `a - 2^b` otherwise. -/
theorem read_bits_signed_eq {buf : List Nat} (pos t b : Nat) (ht : t < 8) (hb1 : 1 ≤ b)
    (hb2 : b ≤ 31) (hb : ByteBuf buf) :
    HQMMessageReader.read_bits_signed ⟨buf, pos, t⟩ b =
      (if (HQMMessageReader.read_bits ⟨buf, pos, t⟩ b).1 < 2 ^ (b - 1) then
          ((HQMMessageReader.read_bits ⟨buf, pos, t⟩ b).1 : Int)
        else ((HQMMessageReader.read_bits ⟨buf, pos, t⟩ b).1 : Int) - 2 ^ b,
       (HQMMessageReader.read_bits ⟨buf, pos, t⟩ b).2) := by
  have halt := read_bits_lt pos t b ht hb
  rcases h2 : HQMMessageReader.read_bits ⟨buf, pos, t⟩ b with ⟨a, r2⟩
  rw [h2] at halt
  simp only at halt
  simp only [HQMMessageReader.read_bits_signed, h2]
  rw [Nat.shiftLeft_eq, Nat.one_mul]
  have hble : (2 : Nat) ^ b ≤ 2 ^ 31 := Nat.pow_le_pow_right (by omega) hb2
  have h1p : (1 : Nat) ≤ 2 ^ b := Nat.one_le_two_pow
  by_cases hcase : a < 2 ^ (b - 1)
  · rw [if_neg (by omega), if_pos hcase]
    have ha31 : a < 2 ^ 31 := by omega
    unfold asI32
    rw [Nat.mod_eq_of_lt (by omega : a < 2 ^ 32), if_pos ha31]
  · rw [if_pos (by omega), if_neg hcase]
    have hpat : ((2 ^ 32 - 1) <<< b) % 2 ^ 32 = 2 ^ 32 - 2 ^ b := by
      rw [Nat.shiftLeft_eq]
      have e : (2 ^ 32 - 1) * 2 ^ b = 2 ^ 32 * (2 ^ b - 1) + (2 ^ 32 - 2 ^ b) := by
        omega
      rw [e, Nat.mul_add_mod, Nat.mod_eq_of_lt (by omega)]
    rw [hpat]
    have hor : 2 ^ 32 - 2 ^ b ||| a = 2 ^ 32 - 2 ^ b + a := by
      have hmul : (2 : Nat) ^ (32 - b) * 2 ^ b = 2 ^ 32 := by
        rw [← Nat.pow_add]
        congr 1
        omega
      have e2 : (2 : Nat) ^ 32 - 2 ^ b = (2 ^ (32 - b) - 1) * 2 ^ b := by
        rw [Nat.sub_mul, Nat.one_mul, hmul]
      rw [e2, Nat.or_comm, or_eq_add_of_lt halt]
      omega
    rw [hor]
    unfold asI32
    rw [Nat.mod_eq_of_lt (by omega : 2 ^ 32 - 2 ^ b + a < 2 ^ 32),
      if_neg (by omega : ¬ 2 ^ 32 - 2 ^ b + a < 2 ^ 31)]
    congr 1
    have hcast : (((2 : Nat) ^ b : Nat) : Int) = (2 : Int) ^ b := by
      push_cast
      ring
    omega

/-- Range of the value returned by `read_bits_signed`. -/
theorem read_bits_signed_bounds {buf : List Nat} (pos t b : Nat) (ht : t < 8)
    (hb1 : 1 ≤ b) (hb2 : b ≤ 31) (hb : ByteBuf buf) :
    -((2 : Int) ^ (b - 1)) ≤ (HQMMessageReader.read_bits_signed ⟨buf, pos, t⟩ b).1 ∧
    (HQMMessageReader.read_bits_signed ⟨buf, pos, t⟩ b).1 < 2 ^ (b - 1) := by
  rw [read_bits_signed_eq pos t b ht hb1 hb2 hb]
  have halt := read_bits_lt pos t b ht hb
  have hpow : ((2 : Int) ^ b) = 2 * 2 ^ (b - 1) := by
    rw [← pow_succ']
    congr 1
    omega
  have hpos : (0 : Int) < 2 ^ (b - 1) := by positivity
  by_cases h : (HQMMessageReader.read_bits ⟨buf, pos, t⟩ b).1 < 2 ^ (b - 1)
  · simp only [if_pos h]
    have hc : ((HQMMessageReader.read_bits ⟨buf, pos, t⟩ b).1 : Int) < 2 ^ (b - 1) := by
      exact_mod_cast h
    constructor
    · exact le_trans (by omega) (Int.ofNat_nonneg _)
    · exact hc
  · simp only [if_neg h]
    have hc1 : ((HQMMessageReader.read_bits ⟨buf, pos, t⟩ b).1 : Int) < 2 ^ b := by
      exact_mod_cast halt
    have hc2 : (2 : Int) ^ (b - 1) ≤ (HQMMessageReader.read_bits ⟨buf, pos, t⟩ b).1 := by
      exact_mod_cast Nat.le_of_not_lt h
    rw [hpow] at hc1
    constructor
    · omega
    · omega

/-- The cursor after `read_bits_signed` is the cursor after `read_bits`. -/
theorem read_bits_signed_state {buf : List Nat} (pos t b : Nat) (ht : t < 8) (hb1 : 1 ≤ b)
    (hb2 : b ≤ 31) (hb : ByteBuf buf) :
    (HQMMessageReader.read_bits_signed ⟨buf, pos, t⟩ b).2 =
      (HQMMessageReader.read_bits ⟨buf, pos, t⟩ b).2 := by
  rw [read_bits_signed_eq pos t b ht hb1 hb2 hb]

/-! ## C5: two's-complement round trip -/

/-- The `n`-bit two's-complement pattern of an integer (the claim's encoding
side: the repository is a decoder only, so the encoder is the mathematical
two's-complement map). -/
def twosComplement (n : Nat) (v : Int) : Nat := (v % (2 ^ n : Int)).toNat

/-- C5: for every `n ∈ [2,16]` and every `v` with `-2^(n-1) ≤ v < 2^(n-1)`,
decoding the `n`-bit two's-complement pattern of `v` (laid out little-endian
in the buffer) with `read_bits_signed n` returns exactly `v`; and on any
valid cursor `read_bits_signed n` returns the unsigned value `a` when
`a < 2^(n-1)` and `a - 2^n` otherwise. -/
theorem C5_signed_round_trip (n : Nat) (v : Int) (hn1 : 2 ≤ n) (hn2 : n ≤ 16)
    (hv1 : -((2 : Int) ^ (n - 1)) ≤ v) (hv2 : v < 2 ^ (n - 1)) :
    ((HQMMessageReader.new
        [twosComplement n v % 256, twosComplement n v / 256]).read_bits_signed n).1 = v ∧
    (∀ buf pos t, ByteBuf buf → t < 8 →
      ((⟨buf, pos, t⟩ : HQMMessageReader).read_bits_signed n).1 =
        if ((⟨buf, pos, t⟩ : HQMMessageReader).read_bits n).1 < 2 ^ (n - 1) then
          (((⟨buf, pos, t⟩ : HQMMessageReader).read_bits n).1 : Int)
        else (((⟨buf, pos, t⟩ : HQMMessageReader).read_bits n).1 : Int) - 2 ^ n) := by
  have hIpow : ((2 : Int) ^ n) = 2 * 2 ^ (n - 1) := by
    rw [← pow_succ']
    congr 1
    omega
  have hIpos : (0 : Int) < 2 ^ n := by positivity
  have hmod_nonneg : 0 ≤ v % (2 ^ n : Int) := Int.emod_nonneg v (by omega)
  have hmod_lt : v % (2 ^ n : Int) < 2 ^ n := Int.emod_lt_of_pos v hIpos
  have hp_cast : ((twosComplement n v : Nat) : Int) = v % (2 ^ n : Int) := by
    unfold twosComplement
    exact Int.toNat_of_nonneg hmod_nonneg
  have hNpow : (2 : Nat) ^ n ≤ 2 ^ 16 := Nat.pow_le_pow_right (by omega) hn2
  have hp_lt : twosComplement n v < 2 ^ n := by
    have : ((twosComplement n v : Nat) : Int) < ((2 ^ n : Nat) : Int) := by
      rw [hp_cast]
      push_cast
      exact hmod_lt
    exact_mod_cast this
  have hbuf : ByteBuf [twosComplement n v % 256, twosComplement n v / 256] := by
    intro x hx
    simp only [List.mem_cons, List.not_mem_nil, or_false] at hx
    have h16 : (2 : Nat) ^ 16 = 65536 := by norm_num
    rcases hx with rfl | rfl
    · omega
    · omega
  constructor
  · have hv : ((HQMMessageReader.new
        [twosComplement n v % 256, twosComplement n v / 256]).read_bits n).1 =
        twosComplement n v := by
      unfold HQMMessageReader.new
      rw [read_bits_val 0 0 n 2 (by omega) (by omega) hbuf]
      have hbv : bytesVal [twosComplement n v % 256, twosComplement n v / 256] 0 2 =
          twosComplement n v := by
        simp only [bytesVal, List.getD]
        norm_num
        omega
      rw [hbv, Nat.pow_zero, Nat.div_one, Nat.mod_eq_of_lt hp_lt]
    unfold HQMMessageReader.new at *
    rw [read_bits_signed_eq 0 0 n (by omega) (by omega) (by omega) hbuf, hv]
    by_cases hvn : 0 ≤ v
    · have hmod : v % (2 ^ n : Int) = v := by
        apply Int.emod_eq_of_lt hvn
        omega
      rw [hmod] at hp_cast
      have hplt : twosComplement n v < 2 ^ (n - 1) := by
        have h1 : ((twosComplement n v : Nat) : Int) < ((2 ^ (n - 1) : Nat) : Int) := by
          rw [hp_cast]
          push_cast
          exact hv2
        exact_mod_cast h1
      rw [if_pos hplt]
      exact hp_cast
    · have hmod : v % (2 ^ n : Int) = v + 2 ^ n := by
        have h1 : (v + 2 ^ n) % (2 ^ n : Int) = v % (2 ^ n : Int) := by
          conv_lhs => rw [show v + (2 : Int) ^ n = v + 2 ^ n * 1 by ring]
          rw [Int.add_mul_emod_self_left]
        rw [← h1]
        apply Int.emod_eq_of_lt (by omega) (by omega)
      rw [hmod] at hp_cast
      rw [if_neg (by
        intro hlt
        have : ((twosComplement n v : Nat) : Int) < ((2 ^ (n - 1) : Nat) : Int) := by
          exact_mod_cast hlt
        rw [hp_cast] at this
        push_cast at this
        omega)]
      rw [hp_cast]
      ring
  · intro buf pos t hb ht
    rw [read_bits_signed_eq pos t n ht (by omega) (by omega) hb]

/-- Witness for C5 at a concrete input: `n = 3`, `v = -2`. -/
theorem C5_signed_round_trip_witness :
    ((HQMMessageReader.new
        [twosComplement 3 (-2) % 256, twosComplement 3 (-2) / 256]).read_bits_signed 3).1 =
      -2 ∧
    (∀ buf pos t, ByteBuf buf → t < 8 →
      ((⟨buf, pos, t⟩ : HQMMessageReader).read_bits_signed 3).1 =
        if ((⟨buf, pos, t⟩ : HQMMessageReader).read_bits 3).1 < 2 ^ (3 - 1) then
          (((⟨buf, pos, t⟩ : HQMMessageReader).read_bits 3).1 : Int)
        else (((⟨buf, pos, t⟩ : HQMMessageReader).read_bits 3).1 : Int) - 2 ^ 3) :=
  C5_signed_round_trip 3 (-2) (by decide) (by decide) (by decide) (by decide)

/-! ## C1, C2: the delta position codec -/

theorem asI32_eq_self {n : Nat} (h : n < 2 ^ 31) : asI32 n = (n : Int) := by
  unfold asI32
  rw [Nat.mod_eq_of_lt (by omega), if_pos h]

theorem wrapI32_eq_self {x : Int} (h1 : -(2 ^ 31) ≤ x) (h2 : x < 2 ^ 31) : wrapI32 x = x := by
  unfold wrapI32
  rw [Int.emod_eq_of_lt (by omega) (by omega)]
  ring

theorem asU32_eq_toNat {x : Int} (h1 : 0 ≤ x) (h2 : x < 2 ^ 32) : asU32 x = x.toNat := by
  unfold asU32
  rw [Int.emod_eq_of_lt h1 h2]

/-- The value produced by the delta branches of `read_pos`, when the `i32`
arithmetic does not overflow. -/
theorem read_pos_delta_value {R : Nat} {D : Int} (hR : R < 2 ^ 31)
    (hD : -(2 ^ 31) < (R : Int) + D) (hRD : (R : Int) + D < 2 ^ 31) :
    asU32 (max (wrapI32 (asI32 R + D)) 0) = (max 0 ((R : Int) + D)).toNat := by
  rw [asI32_eq_self hR, wrapI32_eq_self (by omega) hRD]
  rw [asU32_eq_toNat (le_max_right _ _) (by
    rcases le_total ((R : Int) + D) 0 with h | h
    · rw [max_eq_right h]; omega
    · rw [max_eq_left h]; omega)]
  rw [max_comm]

/-- C1 (amended): for every cursor state and every `full_width` `b`,
`read_pos` first reads a 2-bit mode selector; if the selector is 3 it returns
the absolute `b`-bit unsigned value read next, for every reference argument
(so without using it); if the selector is 0, 1 or 2 and a reference `R` is
present, it reads a 3-, 6- or 12-bit signed delta `D` respectively and
returns `max(0, R + D)` — the latter PROVIDED the `u32 -> i32` cast of `R`
and the `i32` addition do not overflow, i.e. `R < 2^31` and `R + D < 2^31`
(references produced by this decoder always satisfy this, widths being at
most 31 bits).  Without that proviso the claim fails, see the
counterexample. -/
theorem C1_read_pos_amended (buf : List Nat) (pos t b R : Nat) (hb : ByteBuf buf)
    (ht : t < 8) :
    (((HQMMessageReader.read_bits ⟨buf, pos, t⟩ 2).1 = 3 →
      ∀ old_value, HQMMessageReader.read_pos ⟨buf, pos, t⟩ b old_value =
        some ((HQMMessageReader.read_bits ⟨buf, pos, t⟩ 2).2.read_bits b))) ∧
    (∀ w : Nat,
      ((HQMMessageReader.read_bits ⟨buf, pos, t⟩ 2).1 = 0 ∧ w = 3) ∨
      ((HQMMessageReader.read_bits ⟨buf, pos, t⟩ 2).1 = 1 ∧ w = 6) ∨
      ((HQMMessageReader.read_bits ⟨buf, pos, t⟩ 2).1 = 2 ∧ w = 12) →
      R < 2 ^ 31 →
      (R : Int) + ((HQMMessageReader.read_bits ⟨buf, pos, t⟩ 2).2.read_bits_signed w).1 <
        2 ^ 31 →
      HQMMessageReader.read_pos ⟨buf, pos, t⟩ b (some R) =
        some ((max 0 ((R : Int) +
            ((HQMMessageReader.read_bits ⟨buf, pos, t⟩ 2).2.read_bits_signed w).1)).toNat,
          ((HQMMessageReader.read_bits ⟨buf, pos, t⟩ 2).2.read_bits_signed w).2)) := by
  constructor
  · intro h3 old_value
    simp only [HQMMessageReader.read_pos]
    rcases h2 : HQMMessageReader.read_bits ⟨buf, pos, t⟩ 2 with ⟨sel, r1⟩
    rw [h2] at h3
    simp only at h3
    subst h3
    norm_num
  · intro w hw hR hRD
    have hr1 : (HQMMessageReader.read_bits ⟨buf, pos, t⟩ 2).2 =
        (⟨buf, pos + (t + 2) / 8, (t + 2) % 8⟩ : HQMMessageReader) :=
      read_bits_state pos t 2 ht hb
    rcases hw with ⟨hsel, rfl⟩ | ⟨hsel, rfl⟩ | ⟨hsel, rfl⟩
    · have hbounds := read_bits_signed_bounds (pos + (t + 2) / 8) ((t + 2) % 8) 3
        (by omega) (by omega) (by omega) hb
      rw [← hr1] at hbounds
      have hDlow : -((2 : Int) ^ 31) <
          (R : Int) +
            ((HQMMessageReader.read_bits ⟨buf, pos, t⟩ 2).2.read_bits_signed 3).1 := by
        have h1 := hbounds.1
        have h2 : ((2 : Int) ^ (3 - 1)) = 4 := by norm_num
        rw [h2] at h1
        omega
      simp only [HQMMessageReader.read_pos]
      rcases h2 : HQMMessageReader.read_bits ⟨buf, pos, t⟩ 2 with ⟨sel, r1⟩
      rw [h2] at hsel hRD hDlow
      simp only at hsel hRD hDlow
      subst hsel
      norm_num
      rcases hS : r1.read_bits_signed 3 with ⟨D, r2⟩
      rw [hS] at hRD hDlow
      simp only at hRD hDlow
      rw [read_pos_delta_value hR hDlow hRD]
    · have hbounds := read_bits_signed_bounds (pos + (t + 2) / 8) ((t + 2) % 8) 6
        (by omega) (by omega) (by omega) hb
      rw [← hr1] at hbounds
      have hDlow : -((2 : Int) ^ 31) <
          (R : Int) +
            ((HQMMessageReader.read_bits ⟨buf, pos, t⟩ 2).2.read_bits_signed 6).1 := by
        have h1 := hbounds.1
        have h2 : ((2 : Int) ^ (6 - 1)) = 32 := by norm_num
        rw [h2] at h1
        omega
      simp only [HQMMessageReader.read_pos]
      rcases h2 : HQMMessageReader.read_bits ⟨buf, pos, t⟩ 2 with ⟨sel, r1⟩
      rw [h2] at hsel hRD hDlow
      simp only at hsel hRD hDlow
      subst hsel
      norm_num
      rcases hS : r1.read_bits_signed 6 with ⟨D, r2⟩
      rw [hS] at hRD hDlow
      simp only at hRD hDlow
      rw [read_pos_delta_value hR hDlow hRD]
    · have hbounds := read_bits_signed_bounds (pos + (t + 2) / 8) ((t + 2) % 8) 12
        (by omega) (by omega) (by omega) hb
      rw [← hr1] at hbounds
      have hDlow : -((2 : Int) ^ 31) <
          (R : Int) +
            ((HQMMessageReader.read_bits ⟨buf, pos, t⟩ 2).2.read_bits_signed 12).1 := by
        have h1 := hbounds.1
        have h2 : ((2 : Int) ^ (12 - 1)) = 2048 := by norm_num
        rw [h2] at h1
        omega
      simp only [HQMMessageReader.read_pos]
      rcases h2 : HQMMessageReader.read_bits ⟨buf, pos, t⟩ 2 with ⟨sel, r1⟩
      rw [h2] at hsel hRD hDlow
      simp only at hsel hRD hDlow
      subst hsel
      norm_num
      rcases hS : r1.read_bits_signed 12 with ⟨D, r2⟩
      rw [hS] at hRD hDlow
      simp only at hRD hDlow
      rw [read_pos_delta_value hR hDlow hRD]

/-- C1 counterexample: with reference `R = 2^31` (a legal `u32`), mode 0 and
delta `D = 0`, `read_pos` returns `0`, not `max(0, R + D) = 2^31`: the Rust
`old_value.unwrap() as i32` wraps the reference to `-2^31` before the delta
is added, so the claim as stated (for every present reference) is false. -/
theorem C1_read_pos_counterexample :
    (HQMMessageReader.new [0]).read_pos 17 (some (2 ^ 31)) =
      some (0, ⟨[0], 0, 5⟩) ∧
    (max 0 ((2 ^ 31 : Int) +
        (((HQMMessageReader.new [0]).read_bits 2).2.read_bits_signed 3).1)).toNat =
      2 ^ 31 ∧
    (0 : Nat) ≠ 2 ^ 31 := by
  refine ⟨by decide, by decide, by decide⟩

/-- C2: whenever the 2-bit mode selector is 0, 1 or 2 and the reference is
absent, `read_pos` does not return a value or substitute a default: it
aborts (the model returns `none`, standing for the Rust panic in
`old_value.unwrap()`). -/
theorem C2_missing_reference_panics (buf : List Nat) (pos t b : Nat)
    (hsel : (HQMMessageReader.read_bits ⟨buf, pos, t⟩ 2).1 = 0 ∨
      (HQMMessageReader.read_bits ⟨buf, pos, t⟩ 2).1 = 1 ∨
      (HQMMessageReader.read_bits ⟨buf, pos, t⟩ 2).1 = 2) :
    HQMMessageReader.read_pos ⟨buf, pos, t⟩ b none = none := by
  simp only [HQMMessageReader.read_pos]
  rcases h2 : HQMMessageReader.read_bits ⟨buf, pos, t⟩ 2 with ⟨sel, r1⟩
  rw [h2] at hsel
  simp only at hsel
  rcases hsel with rfl | rfl | rfl <;> simp

/-- Witness for C2 at a concrete input (selector 0, buffer `[0]`). -/
theorem C2_missing_reference_panics_witness :
    HQMMessageReader.read_pos ⟨[0], 0, 0⟩ 17 none = none :=
  C2_missing_reference_panics [0] 0 0 17 (by decide)

/-- Witness for C1 (amended) at a concrete input: buffer `[1]` (selector 1,
6-bit delta 0), reference `R = 7`, `full_width = 17`. -/
theorem C1_read_pos_amended_witness :
    HQMMessageReader.read_pos ⟨[1], 0, 0⟩ 17 (some 7) =
      some ((max 0 ((7 : Int) +
          ((HQMMessageReader.read_bits ⟨[1], 0, 0⟩ 2).2.read_bits_signed 6).1)).toNat,
        ((HQMMessageReader.read_bits ⟨[1], 0, 0⟩ 2).2.read_bits_signed 6).2) :=
  (C1_read_pos_amended [1] 0 0 17 7 (by decide) (by decide)).2 6
    (Or.inr (Or.inl ⟨by decide, rfl⟩)) (by decide) (by decide)

/-! ## Data model of `main.rs`: raw object packets and messages -/

/-- `HQMSkaterPacket` in `hqm_parse.rs` (raw quantized wire values). -/
structure HQMSkaterPacket where
  pos : Nat × Nat × Nat
  rot : Nat × Nat
  stick_pos : Nat × Nat × Nat
  stick_rot : Nat × Nat
  head_rot : Nat
  body_rot : Nat
deriving Repr, DecidableEq

/-- `HQMPuckPacket` in `hqm_parse.rs` (raw quantized wire values). -/
structure HQMPuckPacket where
  pos : Nat × Nat × Nat
  rot : Nat × Nat
deriving Repr, DecidableEq

/-- `HQMObjectPacket` in `hqm_parse.rs`. -/
inductive HQMObjectPacket where
  | none
  | puck (p : HQMPuckPacket)
  | skater (s : HQMSkaterPacket)
deriving Repr, DecidableEq

/-- `HQMTeam` in `main.rs`. -/
inductive HQMTeam where
  | red
  | blue
deriving Repr, DecidableEq

/-- `HQMMessage` in `main.rs`.  Text is kept as its decoded byte sequence
(the Rust code holds a `String`; the bytes are what the wire carries). -/
inductive HQMMessage where
  | playerUpdate (player_name : List Nat) (object : Option (Nat × HQMTeam))
      (player_index : Nat) (in_server : Bool)
  | goal (team : HQMTeam) (goal_player_index : Option Nat)
      (assist_player_index : Option Nat)
  | chat (player_index : Option Nat) (message : List Nat)
deriving Repr, DecidableEq

/-- Rust `Option::zip`. -/
def optZip {α β : Type} (a : Option α) (b : Option β) : Option (α × β) :=
  match a, b with
  | some x, some y => some (x, y)
  | _, _ => Option.none

/-- Rust `str::trim_matches(char::from(0))`: remove leading and trailing
NUL bytes. -/
def trimNul (l : List Nat) : List Nat :=
  ((l.dropWhile (· = 0)).reverse.dropWhile (· = 0)).reverse

/-- Length of the UTF-8 sequence started by lead byte `b` (0 = invalid
lead byte): ASCII, or C2–DF, E0–EF, F0–F4 leads (80–C1 and F5–FF are never
valid leads). -/
def seqLen (b : Nat) : Nat :=
  if b < 0x80 then 1
  else if b < 0xC2 then 0
  else if b < 0xE0 then 2
  else if b < 0xF0 then 3
  else if b < 0xF5 then 4
  else 0

/-- A valid UTF-8 continuation byte (80–BF). -/
def contOk (b : Nat) : Bool := decide (0x80 ≤ b) && decide (b < 0xC0)

/-- Constraint on the second byte of a multi-byte sequence (the narrowed
ranges excluding overlong forms, surrogates and values above U+10FFFF). -/
def secondOk (b b2 : Nat) : Bool :=
  if b = 0xE0 then decide (0xA0 ≤ b2) && decide (b2 < 0xC0)
  else if b = 0xED then decide (0x80 ≤ b2) && decide (b2 < 0xA0)
  else if b = 0xF0 then decide (0x90 ≤ b2) && decide (b2 < 0xC0)
  else if b = 0xF4 then decide (0x80 ≤ b2) && decide (b2 < 0x90)
  else contOk b2

/-- Fuel-bounded worker for `utf8Valid`; fuel at least the list length makes
the fuel-exhausted arm unreachable. -/
def utf8ValidGo : Nat → List Nat → Bool
  | _, [] => true
  | 0, _ :: _ => false
  | fuel + 1, b :: rest =>
    if b < 0x80 then utf8ValidGo fuel rest
    else
      let n := seqLen b
      if n = 0 then false
      else if rest.length < n - 1 then false
      else
        secondOk b (rest.headD 0) &&
        ((rest.drop 1).take (n - 2)).all contOk &&
        utf8ValidGo fuel (rest.drop (n - 1))

/-- UTF-8 validity of a byte sequence: the check performed by Rust
`String::from_utf8` (RFC 3629: no overlong forms, no surrogates, at most
U+10FFFF). -/
def utf8Valid (l : List Nat) : Bool := utf8ValidGo l.length l

/-- The 7-bit text loops in `read_message`: read `n` characters of 7 bits
each, in stream order. -/
def readAsciiBytes (r : HQMMessageReader) : Nat → List Nat × HQMMessageReader
  | 0 => ([], r)
  | n + 1 =>
    let (b, r1) := r.read_bits 7
    let (rest, r2) := readAsciiBytes r1 n
    (b :: rest, r2)

/-- `read_message` in `main.rs`.  `none` models the Rust panics: an unknown
6-bit message type, or malformed UTF-8 in a text payload. -/
def read_message (reader : HQMMessageReader) : Option (HQMMessage × HQMMessageReader) :=
  let (message_type, r1) := reader.read_bits 6
  if message_type = 0 then
    let (player_index, r2) := r1.read_bits 6
    let (in_server_bit, r3) := r2.read_bits 1
    let in_server := in_server_bit = 1
    let (team_bits, r4) := r3.read_bits 2
    let team : Option HQMTeam :=
      if team_bits = 0 then some HQMTeam.red
      else if team_bits = 1 then some HQMTeam.blue
      else Option.none
    let (object_bits, r5) := r4.read_bits 6
    let object_index : Option Nat := if object_bits = 0x3F then Option.none else some object_bits
    let object := optZip object_index team
    let (bytes, r6) := readAsciiBytes r5 31
    if utf8Valid bytes then
      some (HQMMessage.playerUpdate (trimNul bytes) object player_index in_server, r6)
    else
      Option.none
  else if message_type = 1 then
    let (team_bits, r2) := r1.read_bits 2
    let team := if team_bits = 0 then HQMTeam.red else HQMTeam.blue
    let (g, r3) := r2.read_bits 6
    let goal_player_index : Option Nat := if g = 0x3F then Option.none else some g
    let (a, r4) := r3.read_bits 6
    let assist_player_index : Option Nat := if a = 0x3F then Option.none else some a
    some (HQMMessage.goal team goal_player_index assist_player_index, r4)
  else if message_type = 2 then
    let (pi, r2) := r1.read_bits 6
    let player_index : Option Nat := if pi = 0x3F then Option.none else some pi
    let (size, r3) := r2.read_bits 6
    let (bytes, r4) := readAsciiBytes r3 size
    if utf8Valid bytes then
      some (HQMMessage.chat player_index (trimNul bytes), r4)
    else
      Option.none
  else
    Option.none

/-! ## The object snapshot codec of `main.rs` -/

/-- The History Cache: packet number to raw 32-slot table.  Modelled as an
association list; `insert` is cons (newest binding shadows, which is
lookup-equivalent to `HashMap::insert`). -/
abbrev History := List (Nat × List HQMObjectPacket)

/-- The `match` computing `old_skater` in `read_objects`: the previous slot
value is usable only if it held a skater. -/
def as_skater : Option HQMObjectPacket → Option HQMSkaterPacket
  | some (HQMObjectPacket.skater s) => some s
  | _ => Option.none

/-- The `match` computing `old_puck` in `read_objects`: the previous slot
value is usable only if it held a puck. -/
def as_puck : Option HQMObjectPacket → Option HQMPuckPacket
  | some (HQMObjectPacket.puck p) => some p
  | _ => Option.none

@[simp] theorem as_skater_none : as_skater Option.none = Option.none := rfl

@[simp] theorem as_puck_none : as_puck Option.none = Option.none := rfl

@[simp] theorem as_skater_skater (s : HQMSkaterPacket) :
    as_skater (some (HQMObjectPacket.skater s)) = some s := rfl

@[simp] theorem as_puck_puck (p : HQMPuckPacket) :
    as_puck (some (HQMObjectPacket.puck p)) = some p := rfl

/-- Body of the 32-slot loop in `read_objects`: decode one slot, given the
same slot of the previous packet's table (when that table was found).
`none` models a panic (unknown object type, or a missing delta reference
inside `read_pos`). -/
def read_object_slot (reader : HQMMessageReader)
    (old_object_in_this_slot : Option HQMObjectPacket) :
    Option (HQMObjectPacket × HQMMessageReader) :=
  let (is_object_bit, r1) := reader.read_bits 1
  if is_object_bit = 1 then
    let (object_type, r2) := r1.read_bits 2
    if object_type = 0 then
      let old_skater := as_skater old_object_in_this_slot
      let old_pos := old_skater.map HQMSkaterPacket.pos
      let old_rot := old_skater.map HQMSkaterPacket.rot
      do
        let (x, r3) ← r2.read_pos 17 (old_pos.map (fun p => p.1))
        let (y, r4) ← r3.read_pos 17 (old_pos.map (fun p => p.2.1))
        let (z, r5) ← r4.read_pos 17 (old_pos.map (fun p => p.2.2))
        let (r1v, r6) ← r5.read_pos 31 (old_rot.map (fun p => p.1))
        let (r2v, r7) ← r6.read_pos 31 (old_rot.map (fun p => p.2))
        let (sx, r8) ← r7.read_pos 13 (old_skater.map (fun s => s.stick_pos.1))
        let (sy, r9) ← r8.read_pos 13 (old_skater.map (fun s => s.stick_pos.2.1))
        let (sz, r10) ← r9.read_pos 13 (old_skater.map (fun s => s.stick_pos.2.2))
        let (sr1, r11) ← r10.read_pos 25 (old_skater.map (fun s => s.stick_rot.1))
        let (sr2, r12) ← r11.read_pos 25 (old_skater.map (fun s => s.stick_rot.2))
        let (hr, r13) ← r12.read_pos 16 (old_skater.map HQMSkaterPacket.head_rot)
        let (br, r14) ← r13.read_pos 16 (old_skater.map HQMSkaterPacket.body_rot)
        some (HQMObjectPacket.skater
          ⟨(x, y, z), (r1v, r2v), (sx, sy, sz), (sr1, sr2), hr, br⟩, r14)
    else if object_type = 1 then
      let old_puck := as_puck old_object_in_this_slot
      let old_pos := old_puck.map HQMPuckPacket.pos
      let old_rot := old_puck.map HQMPuckPacket.rot
      do
        let (x, r3) ← r2.read_pos 17 (old_pos.map (fun p => p.1))
        let (y, r4) ← r3.read_pos 17 (old_pos.map (fun p => p.2.1))
        let (z, r5) ← r4.read_pos 17 (old_pos.map (fun p => p.2.2))
        let (r1v, r6) ← r5.read_pos 31 (old_rot.map (fun p => p.1))
        let (r2v, r7) ← r6.read_pos 31 (old_rot.map (fun p => p.2))
        some (HQMObjectPacket.puck ⟨(x, y, z), (r1v, r2v)⟩, r7)
    else
      Option.none
  else
    some (HQMObjectPacket.none, r1)

/-- The `for i in 0..32` loop of `read_objects`: decode slots `i, …, i+n-1`.
The previous table (when present) always has 32 entries, so the Rust `&x[i]`
indexing is modelled with `getD`. -/
def read_objects_loop (find_old : Option (List HQMObjectPacket)) :
    Nat → Nat → HQMMessageReader → Option (List HQMObjectPacket × HQMMessageReader)
  | _, 0, r => some ([], r)
  | i, n + 1, r => do
    let old := find_old.map (fun x => x.getD i HQMObjectPacket.none)
    let (packet, r1) ← read_object_slot r old
    let (rest, r2) ← read_objects_loop find_old (i + 1) n r1
    some (packet :: rest, r2)

/-- `read_objects` in `main.rs`, restricted to the raw packet table: the
current and previous packet numbers are read, the previous table is looked
up in the History Cache, the 32 slots are decoded against it, and the raw
table is inserted into the cache keyed by the current packet number.  (The
`f32` presentation view built afterwards — `HQMGameObject` with positions
scaled by 1/1024 and rotation matrices — is floating-point arithmetic and is
not modelled; it reads nothing from the stream and cannot panic.)  `none`
models a panic during slot decoding. -/
def read_objects (reader : HQMMessageReader) (history : History) :
    Option (List HQMObjectPacket × Nat × HQMMessageReader × History) :=
  let (current_packet_num, r1) := reader.read_u32_aligned
  let (previous_packet_num, r2) := r1.read_u32_aligned
  let find_old := history.lookup previous_packet_num
  do
    let (packets, r3) ← read_objects_loop find_old 0 32 r2
    some (packets, current_packet_num, r3, (current_packet_num, packets) :: history)

/-! ## Specification-side mode-3-only decoding (for C3) -/

/-- Specification-side field read (`spec §4.2, §4.4`): with no usable
reference, a field can only be decoded when its 2-bit selector is 3, in
which case it denotes the absolute `b`-bit value read next. -/
def abs_field_read (r : HQMMessageReader) (b : Nat) : Option (Nat × HQMMessageReader) :=
  let (pos_type, r1) := r.read_bits 2
  if pos_type = 3 then some (r1.read_bits b) else Option.none

/-- Specification-side slot decode using only mode-3 (absolute) fields. -/
def abs_object_slot (reader : HQMMessageReader) :
    Option (HQMObjectPacket × HQMMessageReader) :=
  let (is_object_bit, r1) := reader.read_bits 1
  if is_object_bit = 1 then
    let (object_type, r2) := r1.read_bits 2
    if object_type = 0 then
      do
        let (x, r3) ← abs_field_read r2 17
        let (y, r4) ← abs_field_read r3 17
        let (z, r5) ← abs_field_read r4 17
        let (r1v, r6) ← abs_field_read r5 31
        let (r2v, r7) ← abs_field_read r6 31
        let (sx, r8) ← abs_field_read r7 13
        let (sy, r9) ← abs_field_read r8 13
        let (sz, r10) ← abs_field_read r9 13
        let (sr1, r11) ← abs_field_read r10 25
        let (sr2, r12) ← abs_field_read r11 25
        let (hr, r13) ← abs_field_read r12 16
        let (br, r14) ← abs_field_read r13 16
        some (HQMObjectPacket.skater
          ⟨(x, y, z), (r1v, r2v), (sx, sy, sz), (sr1, sr2), hr, br⟩, r14)
    else if object_type = 1 then
      do
        let (x, r3) ← abs_field_read r2 17
        let (y, r4) ← abs_field_read r3 17
        let (z, r5) ← abs_field_read r4 17
        let (r1v, r6) ← abs_field_read r5 31
        let (r2v, r7) ← abs_field_read r6 31
        some (HQMObjectPacket.puck ⟨(x, y, z), (r1v, r2v)⟩, r7)
    else
      Option.none
  else
    some (HQMObjectPacket.none, r1)

/-- Specification-side 32-slot loop using only mode-3 fields. -/
def abs_objects_loop : Nat → HQMMessageReader → Option (List HQMObjectPacket × HQMMessageReader)
  | 0, r => some ([], r)
  | n + 1, r => do
    let (packet, r1) ← abs_object_slot r
    let (rest, r2) ← abs_objects_loop n r1
    some (packet :: rest, r2)

/-! ## Valid cursors and read plumbing -/

/-- A well-formed cursor: byte-valued buffer and bit offset below 8 (the
invariant every public reader operation preserves). -/
def ValidReader (r : HQMMessageReader) : Prop := ByteBuf r.buf ∧ r.bit_pos < 8

instance (r : HQMMessageReader) : Decidable (ValidReader r) := by
  unfold ValidReader
  infer_instance

theorem read_bits_lt_of_valid {r : HQMMessageReader} (hv : ValidReader r) (b : Nat) :
    (r.read_bits b).1 < 2 ^ b := by
  obtain ⟨buf, pos, t⟩ := r
  exact read_bits_lt pos t b hv.2 hv.1

theorem read_bits_valid {r : HQMMessageReader} (hv : ValidReader r) (b : Nat) :
    ValidReader (r.read_bits b).2 := by
  obtain ⟨buf, pos, t⟩ := r
  rw [read_bits_state pos t b hv.2 hv.1]
  refine ⟨hv.1, ?_⟩
  show (t + b) % 8 < 8
  omega

theorem read_bits_signed_valid {r : HQMMessageReader} (hv : ValidReader r) {w : Nat}
    (hw1 : 1 ≤ w) (hw2 : w ≤ 31) : ValidReader (r.read_bits_signed w).2 := by
  obtain ⟨buf, pos, t⟩ := r
  rw [read_bits_signed_state pos t w hv.2 hw1 hw2 hv.1]
  exact read_bits_valid hv w

/-- `read_pos` with a present reference always succeeds (from a valid
cursor), with a valid cursor afterwards: all four selector branches return a
value. -/
theorem read_pos_some_isSome {r : HQMMessageReader} (hv : ValidReader r) (b R : Nat) :
    ∃ v r2, r.read_pos b (some R) = some (v, r2) ∧ ValidReader r2 := by
  have hsel := read_bits_lt_of_valid hv 2
  have hv1 := read_bits_valid hv 2
  simp only [HQMMessageReader.read_pos]
  rcases h2 : r.read_bits 2 with ⟨sel, r1⟩
  rw [h2] at hsel hv1
  simp only at hsel hv1
  have hvs3 : ValidReader (r1.read_bits_signed 3).2 :=
    read_bits_signed_valid hv1 (by omega) (by omega)
  have hvs6 : ValidReader (r1.read_bits_signed 6).2 :=
    read_bits_signed_valid hv1 (by omega) (by omega)
  have hvs12 : ValidReader (r1.read_bits_signed 12).2 :=
    read_bits_signed_valid hv1 (by omega) (by omega)
  have hvb : ValidReader (r1.read_bits b).2 := read_bits_valid hv1 b
  match sel, hsel with
  | 0, _ =>
    norm_num
    first
    | exact ⟨_, _, ⟨rfl, rfl⟩, hvs3⟩
    | exact ⟨_, _, rfl, hvs3⟩
  | 1, _ =>
    norm_num
    first
    | exact ⟨_, _, ⟨rfl, rfl⟩, hvs6⟩
    | exact ⟨_, _, rfl, hvs6⟩
  | 2, _ =>
    norm_num
    first
    | exact ⟨_, _, ⟨rfl, rfl⟩, hvs12⟩
    | exact ⟨_, _, rfl, hvs12⟩
  | 3, _ =>
    norm_num
    first
    | exact ⟨_, _, ⟨rfl, rfl⟩, hvb⟩
    | exact ⟨_, _, rfl, hvb⟩

/-! ## ASCII text reads (for C7 and C10) -/

theorem readAsciiBytes_spec :
    ∀ (n : Nat) (r : HQMMessageReader), ValidReader r →
    (∀ x ∈ (readAsciiBytes r n).1, x < 128) ∧ ValidReader (readAsciiBytes r n).2 := by
  intro n
  induction n with
  | zero =>
    intro r hv
    exact ⟨by simp [readAsciiBytes], hv⟩
  | succ n ih =>
    intro r hv
    have hlt := read_bits_lt_of_valid hv 7
    have hnext := read_bits_valid hv 7
    simp only [readAsciiBytes]
    rcases h7 : r.read_bits 7 with ⟨b, r1⟩
    rw [h7] at hlt hnext
    simp only at hlt hnext
    obtain ⟨ih1, ih2⟩ := ih r1 hnext
    rcases hrest : readAsciiBytes r1 n with ⟨rest, r2⟩
    rw [hrest] at ih1 ih2
    simp only at ih1 ih2
    refine ⟨?_, ih2⟩
    intro x hx
    simp only [List.mem_cons] at hx
    rcases hx with rfl | hx
    · omega
    · exact ih1 x hx

theorem utf8ValidGo_of_ascii :
    ∀ (fuel : Nat) (l : List Nat), l.length ≤ fuel → (∀ x ∈ l, x < 128) →
    utf8ValidGo fuel l = true := by
  intro fuel
  induction fuel with
  | zero =>
    intro l hl _
    cases l with
    | nil => rfl
    | cons b rest => simp at hl
  | succ fuel ih =>
    intro l hl h
    cases l with
    | nil => rfl
    | cons b rest =>
      have hb : b < 128 := h b (by simp)
      simp only [utf8ValidGo]
      rw [if_pos (by omega : b < 0x80)]
      refine ih rest ?_ (fun x hx => h x (by simp [hx]))
      simp only [List.length_cons] at hl
      omega

theorem utf8Valid_of_ascii (l : List Nat) (h : ∀ x ∈ l, x < 128) : utf8Valid l = true :=
  utf8ValidGo_of_ascii l.length l (Nat.le_refl _) h

/-! ## Mode-3-only decoding equals decoding with no reference (for C3) -/

/-- With no reference, `read_pos` behaves exactly like the specification's
mode-3-only field read: selectors 0–2 abort, selector 3 yields the absolute
value. -/
theorem read_pos_none_eq_abs (r : HQMMessageReader) (b : Nat) :
    r.read_pos b Option.none = abs_field_read r b := by
  simp only [HQMMessageReader.read_pos, abs_field_read]
  rcases h2 : r.read_bits 2 with ⟨sel, r1⟩
  split_ifs <;> first | rfl | omega

/-- With no old object in the slot, the slot decoder coincides with the
specification's mode-3-only slot decoder. -/
theorem read_object_slot_none_eq_abs (r : HQMMessageReader) :
    read_object_slot r Option.none = abs_object_slot r := by
  delta read_object_slot abs_object_slot
  simp only [as_skater_none, as_puck_none, Option.map_none']
  simp only [read_pos_none_eq_abs]

/-- With a cache miss, the 32-slot loop coincides with the specification's
mode-3-only loop. -/
theorem read_objects_loop_none_eq_abs :
    ∀ (n i : Nat) (r : HQMMessageReader),
    read_objects_loop Option.none i n r = abs_objects_loop n r := by
  intro n
  induction n with
  | zero => intro i r; rfl
  | succ n ih =>
    intro i r
    simp only [read_objects_loop, abs_objects_loop, Option.map_none']
    rw [read_object_slot_none_eq_abs]
    cases abs_object_slot r with
    | none => rfl
    | some pr =>
      cases pr with
      | mk packet r1 =>
        simp only [Option.bind_eq_bind, Option.some_bind]
        rw [ih]

/-! ## Panic characterization of the message codec (for C7, C10) -/

/-- Chaining lemma: a bind succeeds when its head succeeds and its
continuation succeeds on the produced value. -/
theorem bind_isSome {α β : Type} {X : Option α} {f : α → Option β} {a : α}
    (hX : X = some a) (h : ∃ out, f a = some out) : ∃ out, (X >>= f) = some out := by
  subst hX
  obtain ⟨out, hout⟩ := h
  exact ⟨out, hout⟩

/-- `read_message` aborts exactly when the 6-bit message-type tag is not
0, 1 or 2: the only other abort source, malformed UTF-8, is unreachable
because text bytes are read 7 bits at a time. -/
theorem read_message_none_iff {r : HQMMessageReader} (hv : ValidReader r) :
    read_message r = Option.none ↔
      ¬ ((r.read_bits 6).1 = 0 ∨ (r.read_bits 6).1 = 1 ∨ (r.read_bits 6).1 = 2) := by
  have hv1 : ValidReader (r.read_bits 6).2 := read_bits_valid hv 6
  rw [read_message.eq_def]
  rcases h6 : r.read_bits 6 with ⟨tag, r1⟩
  rw [h6] at hv1
  simp only at hv1
  dsimp only
  by_cases h0 : tag = 0
  · subst h0
    rw [if_pos rfl]
    rcases hA : r1.read_bits 6 with ⟨pi, r2⟩
    have hv2 : ValidReader r2 := by have h := read_bits_valid hv1 6; rw [hA] at h; exact h
    dsimp only
    rcases hB : r2.read_bits 1 with ⟨insb, r3⟩
    have hv3 : ValidReader r3 := by have h := read_bits_valid hv2 1; rw [hB] at h; exact h
    dsimp only
    rcases hC : r3.read_bits 2 with ⟨tb, r4⟩
    have hv4 : ValidReader r4 := by have h := read_bits_valid hv3 2; rw [hC] at h; exact h
    dsimp only
    rcases hD : r4.read_bits 6 with ⟨ob, r5⟩
    have hv5 : ValidReader r5 := by have h := read_bits_valid hv4 6; rw [hD] at h; exact h
    dsimp only
    rcases hE : readAsciiBytes r5 31 with ⟨bytes, r6⟩
    have hbytes : ∀ x ∈ bytes, x < 128 := by
      have h := (readAsciiBytes_spec 31 r5 hv5).1
      rw [hE] at h
      exact h
    dsimp only
    rw [if_pos (utf8Valid_of_ascii bytes hbytes)]
    exact ⟨fun hc => absurd hc (Option.some_ne_none _), fun hneg => (hneg (Or.inl rfl)).elim⟩
  · by_cases h1t : tag = 1
    · subst h1t
      rw [if_neg (by omega), if_pos rfl]
      rcases hA : r1.read_bits 2 with ⟨tb, r2⟩
      dsimp only
      rcases hB : r2.read_bits 6 with ⟨g, r3⟩
      dsimp only
      rcases hC : r3.read_bits 6 with ⟨a, r4⟩
      dsimp only
      exact ⟨fun hc => absurd hc (Option.some_ne_none _),
        fun hneg => (hneg (Or.inr (Or.inl rfl))).elim⟩
    · by_cases h2t : tag = 2
      · subst h2t
        rw [if_neg (by omega), if_neg (by omega), if_pos rfl]
        rcases hA : r1.read_bits 6 with ⟨pi, r2⟩
        have hv2 : ValidReader r2 := by have h := read_bits_valid hv1 6; rw [hA] at h; exact h
        dsimp only
        rcases hB : r2.read_bits 6 with ⟨size, r3⟩
        have hv3 : ValidReader r3 := by have h := read_bits_valid hv2 6; rw [hB] at h; exact h
        dsimp only
        rcases hE : readAsciiBytes r3 size with ⟨bytes, r4⟩
        have hbytes : ∀ x ∈ bytes, x < 128 := by
          have h := (readAsciiBytes_spec size r3 hv3).1
          rw [hE] at h
          exact h
        dsimp only
        rw [if_pos (utf8Valid_of_ascii bytes hbytes)]
        exact ⟨fun hc => absurd hc (Option.some_ne_none _),
          fun hneg => (hneg (Or.inr (Or.inr rfl))).elim⟩
      · rw [if_neg h0, if_neg h1t, if_neg h2t]
        exact ⟨fun _ hd => hd.elim h0 (fun hx => hx.elim h1t h2t), fun _ => rfl⟩

/-- A present slot whose 2-bit object-type tag is neither 0 nor 1 aborts the
slot decode, whatever the previous slot held. -/
theorem read_object_slot_bad_tag (r : HQMMessageReader) (old : Option HQMObjectPacket)
    (hpres : (r.read_bits 1).1 = 1)
    (htag0 : ((r.read_bits 1).2.read_bits 2).1 ≠ 0)
    (htag1 : ((r.read_bits 1).2.read_bits 2).1 ≠ 1) :
    read_object_slot r old = Option.none := by
  rw [read_object_slot.eq_def]
  rcases h1 : r.read_bits 1 with ⟨ib, r1⟩
  rw [h1] at hpres htag0 htag1
  simp only at hpres htag0 htag1
  subst hpres
  dsimp only
  rw [if_pos rfl]
  rcases h2 : r1.read_bits 2 with ⟨tg, r2⟩
  rw [h2] at htag0 htag1
  simp only at htag0 htag1
  dsimp only
  rw [if_neg htag0, if_neg htag1]

/-- A present slot with tag 0 (skater) and a matching skater reference in the
previous table always decodes: the tag arm never aborts, and with a present
reference no `read_pos` call can abort either. -/
theorem read_object_slot_skater_ok {r : HQMMessageReader} (hv : ValidReader r)
    (s : HQMSkaterPacket)
    (hpres : (r.read_bits 1).1 = 1)
    (htag : ((r.read_bits 1).2.read_bits 2).1 = 0) :
    ∃ out, read_object_slot r (some (HQMObjectPacket.skater s)) = some out := by
  have hv1 : ValidReader (r.read_bits 1).2 := read_bits_valid hv 1
  have hv2 : ValidReader ((r.read_bits 1).2.read_bits 2).2 := read_bits_valid hv1 2
  rw [read_object_slot.eq_def]
  rcases h1 : r.read_bits 1 with ⟨ib, r1⟩
  rw [h1] at hpres htag hv1 hv2
  simp only at hpres htag hv1 hv2
  subst hpres
  dsimp only
  rw [if_pos rfl]
  rcases h2 : r1.read_bits 2 with ⟨tg, r2⟩
  rw [h2] at htag hv2
  simp only at htag hv2
  subst htag
  dsimp only
  rw [if_pos rfl]
  obtain ⟨x0, t0, hx0, hvv0⟩ := read_pos_some_isSome hv2 17 s.pos.1
  refine bind_isSome hx0 ?_
  obtain ⟨x1, t1, hx1, hvv1⟩ := read_pos_some_isSome hvv0 17 s.pos.2.1
  refine bind_isSome hx1 ?_
  obtain ⟨x2, t2, hx2, hvv2⟩ := read_pos_some_isSome hvv1 17 s.pos.2.2
  refine bind_isSome hx2 ?_
  obtain ⟨x3, t3, hx3, hvv3⟩ := read_pos_some_isSome hvv2 31 s.rot.1
  refine bind_isSome hx3 ?_
  obtain ⟨x4, t4, hx4, hvv4⟩ := read_pos_some_isSome hvv3 31 s.rot.2
  refine bind_isSome hx4 ?_
  obtain ⟨x5, t5, hx5, hvv5⟩ := read_pos_some_isSome hvv4 13 s.stick_pos.1
  refine bind_isSome hx5 ?_
  obtain ⟨x6, t6, hx6, hvv6⟩ := read_pos_some_isSome hvv5 13 s.stick_pos.2.1
  refine bind_isSome hx6 ?_
  obtain ⟨x7, t7, hx7, hvv7⟩ := read_pos_some_isSome hvv6 13 s.stick_pos.2.2
  refine bind_isSome hx7 ?_
  obtain ⟨x8, t8, hx8, hvv8⟩ := read_pos_some_isSome hvv7 25 s.stick_rot.1
  refine bind_isSome hx8 ?_
  obtain ⟨x9, t9, hx9, hvv9⟩ := read_pos_some_isSome hvv8 25 s.stick_rot.2
  refine bind_isSome hx9 ?_
  obtain ⟨x10, t10, hx10, hvv10⟩ := read_pos_some_isSome hvv9 16 s.head_rot
  refine bind_isSome hx10 ?_
  obtain ⟨x11, t11, hx11, hvv11⟩ := read_pos_some_isSome hvv10 16 s.body_rot
  refine bind_isSome hx11 ?_
  exact ⟨_, rfl⟩

/-- A present slot with tag 1 (puck) and a matching puck reference in the
previous table always decodes. -/
theorem read_object_slot_puck_ok {r : HQMMessageReader} (hv : ValidReader r)
    (p : HQMPuckPacket)
    (hpres : (r.read_bits 1).1 = 1)
    (htag : ((r.read_bits 1).2.read_bits 2).1 = 1) :
    ∃ out, read_object_slot r (some (HQMObjectPacket.puck p)) = some out := by
  have hv1 : ValidReader (r.read_bits 1).2 := read_bits_valid hv 1
  have hv2 : ValidReader ((r.read_bits 1).2.read_bits 2).2 := read_bits_valid hv1 2
  rw [read_object_slot.eq_def]
  rcases h1 : r.read_bits 1 with ⟨ib, r1⟩
  rw [h1] at hpres htag hv1 hv2
  simp only at hpres htag hv1 hv2
  subst hpres
  dsimp only
  rw [if_pos rfl]
  rcases h2 : r1.read_bits 2 with ⟨tg, r2⟩
  rw [h2] at htag hv2
  simp only at htag hv2
  subst htag
  dsimp only
  rw [if_neg (by omega), if_pos rfl]
  obtain ⟨x0, t0, hx0, hvv0⟩ := read_pos_some_isSome hv2 17 p.pos.1
  refine bind_isSome hx0 ?_
  obtain ⟨x1, t1, hx1, hvv1⟩ := read_pos_some_isSome hvv0 17 p.pos.2.1
  refine bind_isSome hx1 ?_
  obtain ⟨x2, t2, hx2, hvv2⟩ := read_pos_some_isSome hvv1 17 p.pos.2.2
  refine bind_isSome hx2 ?_
  obtain ⟨x3, t3, hx3, hvv3⟩ := read_pos_some_isSome hvv2 31 p.rot.1
  refine bind_isSome hx3 ?_
  obtain ⟨x4, t4, hx4, hvv4⟩ := read_pos_some_isSome hvv3 31 p.rot.2
  refine bind_isSome hx4 ?_
  exact ⟨_, rfl⟩

/-! ## C3: cache miss decodes with mode-3 fields only -/

/-- C3: when `previous_packet_number` misses the History Cache, `read_objects`
behaves exactly like the specification's mode-3-only decoder: if every
present field of the packet uses selector 3 (that is, the mode-3-only parse
succeeds, producing the absolute values), `read_objects` decodes the full
32-slot table successfully — no panic — and every field equals the absolute
value read from the stream. -/
theorem C3_cache_miss_decodes_mode3 (reader : HQMMessageReader) (h : History)
    (hmiss : h.lookup ((reader.read_u32_aligned).2.read_u32_aligned).1 = Option.none)
    (tbl : List HQMObjectPacket) (r' : HQMMessageReader)
    (habs : abs_objects_loop 32 ((reader.read_u32_aligned).2.read_u32_aligned).2 =
      some (tbl, r')) :
    read_objects reader h =
      some (tbl, (reader.read_u32_aligned).1, r',
        ((reader.read_u32_aligned).1, tbl) :: h) := by
  rw [read_objects.eq_def]
  rcases hc : reader.read_u32_aligned with ⟨cur, r1⟩
  rw [hc] at hmiss habs
  simp only at hmiss habs
  dsimp only
  rcases hp : r1.read_u32_aligned with ⟨prev, r2⟩
  rw [hp] at hmiss habs
  simp only at hmiss habs
  dsimp only
  rw [hmiss, read_objects_loop_none_eq_abs 32 0 r2, habs]
  rfl

/-- Witness for C3: a cache miss with one present puck whose five fields all
use mode 3 (absolute values 0); the other 31 slots are absent. -/
theorem C3_cache_miss_decodes_mode3_witness :
    read_objects (HQMMessageReader.new
        [0, 0, 0, 0, 0, 0, 0, 0, 27, 0, 192, 0, 0, 6, 0, 48, 0, 0, 0, 96,
          0, 0, 0, 0, 0, 0, 0, 0]) [] =
      some (HQMObjectPacket.puck ⟨(0, 0, 0), (0, 0)⟩ ::
          List.replicate 31 HQMObjectPacket.none, 0,
        ⟨[0, 0, 0, 0, 0, 0, 0, 0, 27, 0, 192, 0, 0, 6, 0, 48, 0, 0, 0, 96,
          0, 0, 0, 0, 0, 0, 0, 0], 27, 5⟩,
        [(0, HQMObjectPacket.puck ⟨(0, 0, 0), (0, 0)⟩ ::
          List.replicate 31 HQMObjectPacket.none)]) :=
  C3_cache_miss_decodes_mode3 _ [] (by decide) _ _ (by decide)

/-! ## C7: aborts and tag violations -/

/-- C7 (amended): tag checks behave as claimed — `read_message` aborts
exactly when its 6-bit message-type tag is not 0, 1 or 2; a present object
slot whose 2-bit type tag is neither 0 (skater) nor 1 (puck) always aborts
the slot decode; and tags 0 and 1 never trigger that abort (with a
matching-type reference in the previous table the slot always decodes).
The original claim's "aborts **only** at a tag violation" is false for
`read_objects`, which can also abort on a missing delta reference — see the
counterexample. -/
theorem C7_tag_violations_amended :
    (∀ r : HQMMessageReader, ValidReader r →
      (read_message r = Option.none ↔
        ¬ ((r.read_bits 6).1 = 0 ∨ (r.read_bits 6).1 = 1 ∨ (r.read_bits 6).1 = 2))) ∧
    (∀ (r : HQMMessageReader) (old : Option HQMObjectPacket),
      (r.read_bits 1).1 = 1 →
      ((r.read_bits 1).2.read_bits 2).1 ≠ 0 →
      ((r.read_bits 1).2.read_bits 2).1 ≠ 1 →
      read_object_slot r old = Option.none) ∧
    (∀ r : HQMMessageReader, ValidReader r → ∀ s : HQMSkaterPacket,
      (r.read_bits 1).1 = 1 → ((r.read_bits 1).2.read_bits 2).1 = 0 →
      ∃ out, read_object_slot r (some (HQMObjectPacket.skater s)) = some out) ∧
    (∀ r : HQMMessageReader, ValidReader r → ∀ p : HQMPuckPacket,
      (r.read_bits 1).1 = 1 → ((r.read_bits 1).2.read_bits 2).1 = 1 →
      ∃ out, read_object_slot r (some (HQMObjectPacket.puck p)) = some out) :=
  ⟨fun _ hv => read_message_none_iff hv,
   read_object_slot_bad_tag,
   fun _ hv s => read_object_slot_skater_ok hv s,
   fun _ hv p => read_object_slot_puck_ok hv p⟩

/-- Witness for C7 (amended) at concrete inputs: buffer `[3]` has message
tag 3, so `read_message` aborts; buffer `[5]` has a present slot with type
tag 2, so the slot decode aborts. -/
theorem C7_tag_violations_amended_witness :
    read_message (HQMMessageReader.new [3]) = Option.none ∧
    read_object_slot (HQMMessageReader.new [5]) Option.none = Option.none :=
  ⟨(C7_tag_violations_amended.1 (HQMMessageReader.new [3]) (by decide)).mpr (by decide),
   C7_tag_violations_amended.2.1 (HQMMessageReader.new [5]) Option.none (by decide)
     (by decide) (by decide)⟩

/-- C7 counterexample: decoding can abort with **no** tag violation, so
"panics if and only if a structural violation occurs at a tag" is false.
In this buffer the first slot is present with the valid tag 0 (skater), but
its first position field selects delta mode 0 while the History Cache is
empty, and `read_objects` aborts on the missing reference. -/
theorem C7_abort_without_tag_violation :
    read_objects (HQMMessageReader.new
        [0, 0, 0, 0, 0, 0, 0, 0, 1, 0, 0, 0]) [] = Option.none ∧
    ((⟨[0, 0, 0, 0, 0, 0, 0, 0, 1, 0, 0, 0], 8, 0⟩ : HQMMessageReader).read_bits 1).1 = 1 ∧
    (((⟨[0, 0, 0, 0, 0, 0, 0, 0, 1, 0, 0, 0], 8, 0⟩ :
        HQMMessageReader).read_bits 1).2.read_bits 2).1 = 0 :=
  ⟨by decide, by decide, by decide⟩

/-! ## C9: the History Cache is insert-only -/

/-- C9: one decode step mutates the History Cache exactly once — a single
insertion keyed by the packet's `current_packet_number` — and removes or
rewrites nothing: every other key still looks up to its old value.  The
decoded table and reader depend on the history only through the read-only
lookup of `previous_packet_number`, and a table, once inserted, is a pure
value the later decode only reads. -/
theorem C9_history_insert_only (reader : HQMMessageReader) (h : History)
    (tbl : List HQMObjectPacket) (cur : Nat) (r' : HQMMessageReader) (h' : History)
    (heq : read_objects reader h = some (tbl, cur, r', h')) :
    h' = (cur, tbl) :: h ∧
    cur = (reader.read_u32_aligned).1 ∧
    (∀ k, h'.lookup k = if k = cur then some tbl else h.lookup k) ∧
    (∀ h₂ : History,
      h₂.lookup ((reader.read_u32_aligned).2.read_u32_aligned).1 =
        h.lookup ((reader.read_u32_aligned).2.read_u32_aligned).1 →
      read_objects reader h₂ = some (tbl, cur, r', (cur, tbl) :: h₂)) := by
  rw [read_objects.eq_def] at heq
  rcases hc : reader.read_u32_aligned with ⟨cur0, r1⟩
  rw [hc] at heq
  simp only at heq
  dsimp only
  rcases hp : r1.read_u32_aligned with ⟨prev, r2⟩
  rw [hp] at heq
  simp only at heq
  dsimp only
  rcases hl : read_objects_loop (h.lookup prev) 0 32 r2 with _ | ⟨packets, r3⟩
  · rw [hl] at heq
    simp at heq
  · rw [hl] at heq
    simp only [Option.bind_eq_bind, Option.some_bind] at heq
    obtain ⟨h1, h2, h3, h4⟩ : packets = tbl ∧ cur0 = cur ∧ r3 = r' ∧ (cur0, packets) :: h = h' := by
      simpa using heq
    subst h1
    subst h2
    subst h3
    subst h4
    refine ⟨rfl, rfl, ?_, ?_⟩
    · intro k
      by_cases hk : k = cur0
      · subst hk
        simp [List.lookup]
      · simp [List.lookup, beq_false_of_ne hk, hk]
    · intro h₂ hlook
      rw [read_objects.eq_def, hc]
      dsimp only
      rw [hp]
      dsimp only
      rw [hlook, hl]
      rfl

/-- Witness for C9 at a concrete input: a 12-byte all-zero buffer (packet
number 0, previous 0, all 32 slots absent) decoded against an empty cache. -/
theorem C9_history_insert_only_witness :
    ([(0, List.replicate 32 HQMObjectPacket.none)] : History) =
      (0, List.replicate 32 HQMObjectPacket.none) :: [] ∧
    (0 : Nat) = ((HQMMessageReader.new
        [0, 0, 0, 0, 0, 0, 0, 0, 0, 0, 0, 0]).read_u32_aligned).1 ∧
    (∀ k, ([(0, List.replicate 32 HQMObjectPacket.none)] : History).lookup k =
      if k = 0 then some (List.replicate 32 HQMObjectPacket.none)
      else ([] : History).lookup k) ∧
    (∀ h₂ : History,
      h₂.lookup (((HQMMessageReader.new
          [0, 0, 0, 0, 0, 0, 0, 0, 0, 0, 0, 0]).read_u32_aligned).2.read_u32_aligned).1 =
        ([] : History).lookup (((HQMMessageReader.new
          [0, 0, 0, 0, 0, 0, 0, 0, 0, 0, 0, 0]).read_u32_aligned).2.read_u32_aligned).1 →
      read_objects (HQMMessageReader.new [0, 0, 0, 0, 0, 0, 0, 0, 0, 0, 0, 0]) h₂ =
        some (List.replicate 32 HQMObjectPacket.none, 0,
          ⟨[0, 0, 0, 0, 0, 0, 0, 0, 0, 0, 0, 0], 12, 0⟩,
          (0, List.replicate 32 HQMObjectPacket.none) :: h₂)) := by
  have h := C9_history_insert_only (HQMMessageReader.new
    [0, 0, 0, 0, 0, 0, 0, 0, 0, 0, 0, 0]) []
    (List.replicate 32 HQMObjectPacket.none) 0
    ⟨[0, 0, 0, 0, 0, 0, 0, 0, 0, 0, 0, 0], 12, 0⟩
    [(0, List.replicate 32 HQMObjectPacket.none)] (by decide)
  exact ⟨h.1, h.2.1, h.2.2.1, h.2.2.2⟩

/-! ## C10: message text bytes are always ASCII -/

/-- C10: every text byte `read_message` produces (the 31 player-name bytes of
a player update and each length-prefixed chat byte) comes from
`read_bits(7)`, so it is below `0x80`; such byte sequences are always valid
UTF-8, hence the UTF-8 validation in `read_message` never fails: for
message types 0 and 2 the malformed-UTF-8 panic branches are unreachable. -/
theorem C10_text_bytes_always_ascii :
    (∀ (r : HQMMessageReader) (n : Nat), ValidReader r →
      (∀ x ∈ (readAsciiBytes r n).1, x < 0x80) ∧
      utf8Valid (readAsciiBytes r n).1 = true) ∧
    (∀ r : HQMMessageReader, ValidReader r →
      ((r.read_bits 6).1 = 0 ∨ (r.read_bits 6).1 = 2) →
      read_message r ≠ Option.none) :=
  ⟨fun r n hv => ⟨fun x hx => (readAsciiBytes_spec n r hv).1 x hx,
      utf8Valid_of_ascii _ (readAsciiBytes_spec n r hv).1⟩,
   fun r hv htag hnone =>
      ((read_message_none_iff hv).mp hnone)
        (htag.elim Or.inl (fun h2 => Or.inr (Or.inr h2)))⟩

/-- Witness for C10 at concrete inputs: 7-bit reads from an all-ones buffer
stay below 0x80 and form valid UTF-8; a type-0 message parsed from a zero
buffer does not abort. -/
theorem C10_text_bytes_always_ascii_witness :
    utf8Valid (readAsciiBytes (HQMMessageReader.new [255, 255, 255]) 3).1 = true ∧
    read_message (HQMMessageReader.new (List.replicate 30 0)) ≠ Option.none :=
  ⟨((C10_text_bytes_always_ascii.1 (HQMMessageReader.new [255, 255, 255]) 3 (by decide))).2,
   C10_text_bytes_always_ascii.2 (HQMMessageReader.new (List.replicate 30 0)) (by decide)
     (Or.inl (by decide))⟩

end HQM
